import Mathlib

/-!
Verification development for `sampleFromFam.py`.

The program assigns real genetic samples to the founders of simulated
pedigrees.  We embed its core data structures and operations shallowly:

* relatedness values (`PropIBD`) are modelled as exact rationals `ℚ`;
* numpy arrays become total functions `Nat → ...` (entries outside the
  array bounds are phantom and never observed by the claims);
* every call of `np.random.choice`/`randomBin` consumes one value from an
  explicit tape `List Nat`; a drawn value `v` selects element `v % length`
  of the candidate pool, so quantifying over tapes covers every possible
  sequence of draws, and any particular tape is realisable whenever all
  bin probabilities are positive;
* a Python crash (failed `assert`, `ValueError`, `TypeError`, `IndexError`,
  or an infinite retry loop observed only finitely far) is modelled as
  `Option.none`.
-/

/-- Executable form of the exact rational mean `(a + b) / 2` used by
`KING.addChild` (sampleFromFam.py line 83).  `Rat.add`/`Rat.div` are marked
irreducible in the library, which blocks kernel evaluation on concrete
inputs, so the model computes the mean through `mkRat`; `qmean_eq` below
proves it equal to `(a + b) / 2`. -/
def qmean (a b : ℚ) : ℚ :=
  mkRat (a.num * (b.den : Int) + b.num * (a.den : Int)) (2 * (a.den * b.den))

/-- Result of `Bins.discretize` (lines 16-20): the `assert 0 <= PropIBD <= 1`
can fail (`assertFail`), the scan over the bins can fall through and return
Python `None` (`noBin`), or a bin index is returned. -/
inductive DiscResult where
  | assertFail
  | noBin
  | bin (i : Nat)
deriving DecidableEq

/-- The bin index carried by a `DiscResult`, if any. -/
def DiscResult.idx? : DiscResult → Option Nat
  | DiscResult.bin i => some i
  | _ => none

/-- The scan `for index, (r1, r2) in enumerate(self.bins): if r1 < v <= r2:
return index` of `Bins.discretize` (lines 18-20), with the running index
made explicit. -/
def scanBins (v : ℚ) : List (ℚ × ℚ) → Nat → Option Nat
  | [], _ => none
  | p :: rest, i => if p.1 < v ∧ v ≤ p.2 then some i else scanBins v rest (i + 1)

/-- Embeds `Bins.discretize` (lines 16-20): assert `0 ≤ v ≤ 1`, then return
the first bin `(r1, r2]` containing `v`; falling through the loop is
Python's implicit `return None`. -/
def discretize (bins : List (ℚ × ℚ)) (v : ℚ) : DiscResult :=
  if 0 ≤ v ∧ v ≤ 1 then
    match scanBins v bins 0 with
    | some i => DiscResult.bin i
    | none => DiscResult.noBin
  else DiscResult.assertFail

/-- Embeds `Bins.__init__` (line 12): the list of consecutive boundary
pairs `[(bins[i], bins[i+1]) for i in range(len(bins)-1)]`. -/
def mkBins : List ℚ → List (ℚ × ℚ)
  | [] => []
  | [_] => []
  | a :: b :: rest => (a, b) :: mkBins (b :: rest)

/-- State of a `KING` object (lines 31-75).  `kinArray`, `binArray` and
`binCounts` are the numpy arrays as total functions; `unrelated` is the
row-major list of zero-kinship index pairs `np.where(kinArray == 0)`;
`bins` is the boundary-pair list of the `Bins` object. -/
structure KingState where
  orig_n : Nat
  n_samples : Nat
  n_bins : Nat
  bins : List (ℚ × ℚ)
  maxPropIBD : ℚ
  kinArray : Nat → Nat → ℚ
  binArray : Nat → Nat → List Nat
  binCounts : Nat → Nat → Nat
  samples : List String
  unrelated : List (Nat × Nat)
  nth_founder : Nat
  founderColumn : List (List Nat)

/-- Placeholder state used only as the default of `Option.getD`; every
theorem that reads through `getD` carries an `isSome` hypothesis, so this
value is never observed. -/
def dummyKing : KingState :=
  { orig_n := 0, n_samples := 0, n_bins := 0, bins := [], maxPropIBD := 0,
    kinArray := fun _ _ => 0, binArray := fun _ _ => [],
    binCounts := fun _ _ => 0, samples := [], unrelated := [],
    nth_founder := 0, founderColumn := [] }

/-- The three arrays built by the record loop of `KING.__init__`
(lines 46-61). -/
structure InitAcc where
  kinArray : Nat → Nat → ℚ
  binArray : Nat → Nat → List Nat
  binCounts : Nat → Nat → Nat

/-- One iteration of the record loop of `KING.__init__` (lines 53-61) for a
record `(ID1, ID2, PropIBD)`: look both ids up in the (extended) sample
list, append each index to the other's bin row, bump both bin counts, and
write the kinship value symmetrically.  A record whose id is absent
(`list.index` raises `ValueError`) or whose value discretizes to `None` or
fails the range assert (the subsequent `binArray[idx, None]` indexing
crashes) aborts the construction. -/
def initStep (bins : List (ℚ × ℚ)) (samples : List String) (acc : InitAcc)
    (r : String × String × ℚ) : Option InitAcc :=
  match discretize bins r.2.2 with
  | DiscResult.bin b =>
    if r.1 ∈ samples ∧ r.2.1 ∈ samples then
      some
        { kinArray := fun a c =>
            if (a = samples.indexOf r.1 ∧ c = samples.indexOf r.2.1) ∨
               (a = samples.indexOf r.2.1 ∧ c = samples.indexOf r.1) then r.2.2
            else acc.kinArray a c,
          binArray := fun a d =>
            if d = b ∧ a = samples.indexOf r.1 ∧ a = samples.indexOf r.2.1 then
              acc.binArray a d ++ [samples.indexOf r.2.1, samples.indexOf r.1]
            else if d = b ∧ a = samples.indexOf r.1 then
              acc.binArray a d ++ [samples.indexOf r.2.1]
            else if d = b ∧ a = samples.indexOf r.2.1 then
              acc.binArray a d ++ [samples.indexOf r.1]
            else acc.binArray a d,
          binCounts := fun a d =>
            if d = b ∧ a = samples.indexOf r.1 ∧ a = samples.indexOf r.2.1 then
              acc.binCounts a d + 2
            else if d = b ∧ (a = samples.indexOf r.1 ∨ a = samples.indexOf r.2.1) then
              acc.binCounts a d + 1
            else acc.binCounts a d }
    else none
  | _ => none

/-- The row-major pair list `np.where(kinArray == 0)` over the full
`n × n` matrix (line 67); it includes diagonal pairs and rows of samples
still to be synthesised, exactly as in the source. -/
def unrelatedOf (kin : Nat → Nat → ℚ) (n : Nat) : List (Nat × Nat) :=
  (List.range n).flatMap fun i =>
    (List.range n).filterMap fun j => if kin i j = 0 then some (i, j) else none

/-- Embeds `KING.__init__` (lines 31-75).  `samplesList += samplesToAdd`
mutates the caller's list in place; the model returns the extended list in
the `samples` field, and the orchestration loop below threads it to the
next construction exactly as the aliasing does in `__main__`. -/
def kingInit (records : List (String × String × ℚ)) (bins : List (ℚ × ℚ))
    (samplesList samplesToAdd : List String) (maxPropIBD : ℚ) : Option KingState :=
  match records.foldlM
      (initStep bins (samplesList ++ samplesToAdd))
      { kinArray := fun _ _ => 0, binArray := fun _ _ => [],
        binCounts := fun _ _ => 0 } with
  | none => none
  | some acc =>
    some
      { orig_n := samplesList.length,
        n_samples := (samplesList ++ samplesToAdd).length,
        n_bins := bins.length,
        bins := bins,
        maxPropIBD := maxPropIBD,
        kinArray := acc.kinArray,
        binArray := acc.binArray,
        binCounts := acc.binCounts,
        samples := samplesList ++ samplesToAdd,
        unrelated := unrelatedOf acc.kinArray (samplesList ++ samplesToAdd).length,
        nth_founder := 0,
        founderColumn := List.replicate (samplesList ++ samplesToAdd).length [] }

/-- `kingInit` read through `Option.getD`; only used under an `isSome`
hypothesis. -/
def kingInitD (records : List (String × String × ℚ)) (bins : List (ℚ × ℚ))
    (samplesList samplesToAdd : List String) (maxPropIBD : ℚ) : KingState :=
  (kingInit records bins samplesList samplesToAdd maxPropIBD).getD dummyKing

/-- The list `kDisc = [self.bins.discretize(i) for i in k]` of
`KING.addChild` (line 89), where `k` is the mean of the two parent rows
(line 83); `none` when any entry fails the assert or discretizes to
Python `None` (the subsequent `binCountRow[None]` lookup raises). -/
def childDisc (st : KingState) (p1 p2 : Nat) : Option (List Nat) :=
  (List.range st.n_samples).mapM fun j =>
    (discretize st.bins (qmean (st.kinArray p1 j) (st.kinArray p2 j))).idx?

/-- The indices appended to `binArray[childIdx, d]` by the loop
`for index, d in enumerate(kDisc): self.binArray[childIdx, d].append(index)`
(lines 97-98), in order. -/
def newBinEntries (kDisc : List Nat) (d : Nat) : List Nat :=
  kDisc.enum.filterMap fun p => if p.2 = d then some p.1 else none

/-- Embeds `KING.addChild` (lines 77-100): assert the child id is known,
compute the mean `k` of the two parent rows, write it as the child's row
and column, overwrite the child's `binCounts` row with the fresh counts of
`kDisc`, and append the new entries to the child's `binArray` row (the
existing row contents are NOT cleared, and no other sample's row is
touched).  Returns the updated state and the child's index. -/
def addChild (st : KingState) (childId : String) (p1 p2 : Nat) :
    Option (KingState × Nat) :=
  if childId ∈ st.samples then
    match childDisc st p1 p2 with
    | none => none
    | some kDisc =>
      some
        ({ st with
            kinArray := fun i j =>
              if i = st.samples.indexOf childId then
                qmean (st.kinArray p1 j) (st.kinArray p2 j)
              else if j = st.samples.indexOf childId then
                qmean (st.kinArray p1 i) (st.kinArray p2 i)
              else st.kinArray i j,
            binCounts := fun i d =>
              if i = st.samples.indexOf childId then kDisc.count d
              else st.binCounts i d,
            binArray := fun i d =>
              if i = st.samples.indexOf childId then
                st.binArray i d ++ newBinEntries kDisc d
              else st.binArray i d },
         st.samples.indexOf childId)
  else none

/-- `addChild` read through `Option.getD`; only used under an `isSome`
hypothesis. -/
def addChildD (st : KingState) (childId : String) (p1 p2 : Nat) :
    KingState × Nat :=
  (addChild st childId p1 p2).getD (st, 0)

/-- The inner retry loop of `KING.randomCouple` for the unrelated bin
(lines 107-116): redraw an index into the `unrelated` pair list until the
pair is not a self-pair and both members are original samples.  Note that
`checkAgainstFounders` is NOT consulted on this path. -/
def pickUnrelated (st : KingState) : List Nat → Option ((Nat × Nat) × List Nat)
  | [] => none
  | v :: rest =>
    if st.unrelated.length = 0 then none
    else
      let p := st.unrelated.getD (v % st.unrelated.length) (0, 0)
      if p.1 = p.2 ∨ st.orig_n ≤ p.1 ∨ st.orig_n ≤ p.2 then pickUnrelated st rest
      else some (p, rest)

/-- Embeds `KING.randomCouple` (lines 102-131).  Each loop iteration draws
a bin (`tmp`); bin 0 branches to `pickUnrelated` and returns without any
founder check.  Otherwise `randBin` is `tmp` if some original sample has a
partner in that bin and `-1` if not (in which case the subsequent numpy
indexing `binCounts[:orig_n, -1]` reads the LAST bin column); `m` is drawn
from the originals with a positive count in that column; the founder check
(only reached with a non-empty `checkAgainstFounders`, since an empty list
is falsy) rejects `m` related above `maxPropIBD` to, or equal to, any
excluded index, and on rejection the loop redraws.  On acceptance the
partner is drawn from `binArray[m, randBin]` WITHOUT any founder check. -/
def randomCouple (st : KingState) (check : List Nat) :
    List Nat → Option ((Nat × Nat) × List Nat)
  | [] => none
  | v :: rest =>
    if v % st.n_bins = 0 then pickUnrelated st rest
    else
      match rest with
      | [] => none
      | w :: rest2 =>
        let tmp := v % st.n_bins
        let sumPos := 0 < ((List.range st.orig_n).map fun i => st.binCounts i tmp).sum
        let col := if sumPos then tmp else st.n_bins - 1
        let cands := (List.range st.orig_n).filter fun i => 0 < st.binCounts i col
        if cands.length = 0 then none
        else
          let m := cands.getD (w % cands.length) 0
          let rej := check ≠ [] ∧ check.any fun n =>
            decide (st.maxPropIBD < st.kinArray m n) || decide (m = n)
          if sumPos ∧ ¬rej then
            match rest2 with
            | [] => none
            | u :: rest3 =>
              if (st.binArray m tmp).length = 0 then none
              else
                some ((m, (st.binArray m tmp).getD (u % (st.binArray m tmp).length) 0),
                  rest3)
          else randomCouple st check rest2

/-- Embeds `KING.randomFounder` (lines 133-156): draw a bin until
`binCounts[idx, tmp] > 0`, draw a candidate `m` from `binArray[idx, tmp]`,
reject it if it is not an original sample or (with a non-empty exclusion
list) if it is related above `maxPropIBD` to, or equal to, any excluded
index; otherwise return it. -/
def randomFounder (st : KingState) (idx : Nat) (check : List Nat) :
    List Nat → Option (Nat × List Nat)
  | [] => none
  | v :: rest =>
    if st.binCounts idx (v % st.n_bins) = 0 then randomFounder st idx check rest
    else
      match rest with
      | [] => none
      | w :: rest2 =>
        let row := st.binArray idx (v % st.n_bins)
        if row.length = 0 then none
        else
          let m := row.getD (w % row.length) 0
          if st.orig_n ≤ m then randomFounder st idx check rest2
          else if check ≠ [] ∧ check.any fun n =>
              decide (st.maxPropIBD < st.kinArray m n) || decide (m = n) then
            randomFounder st idx check rest2
          else some (m, rest2)

/-- Embeds `KING.addFounders` (lines 158-161): for each index (in order)
append the CURRENT counter value — a single number — to that sample's
ledger entry and advance the counter by 2.  An out-of-range index is a
crash (Python negative indices, which `findFounders` can produce for a
founder that never received an index, would wrap instead; no claim
exercises that path). -/
def addFounders (st : KingState) : List Nat → Option KingState
  | [] => some st
  | x :: rest =>
    if x < st.founderColumn.length then
      addFounders
        { st with
            founderColumn := st.founderColumn.set x
              (st.founderColumn.getD x [] ++ [st.nth_founder]),
            nth_founder := st.nth_founder + 2 }
        rest
    else none

/-- `addFounders` read through `Option.getD`; only used under an `isSome`
hypothesis. -/
def addFoundersD (st : KingState) (l : List Nat) : KingState :=
  (addFounders st l).getD st

/-- The values a single `addFounders` call starting at counter `c` appends
to the ledger entry of sample `i`: one value `c + 2·(position)` per
occurrence of `i` in the argument list. -/
def issuedAt (c : Nat) : List Nat → Nat → List Nat
  | [], _ => []
  | x :: rest, i => (if x = i then [c] else []) ++ issuedAt (c + 2) rest i

/-- All slot ids issued by one `addFounders` call starting at counter `c`,
in issuance order. -/
def callTrace (c : Nat) : List Nat → List Nat
  | [] => []
  | _ :: rest => c :: callTrace (c + 2) rest

/-- All slot ids issued across a run: one `addFounders` call per inner
list, with the counter threaded from call to call exactly as `__main__`
(lines 351-358) copies `nth_founder` out of one pedigree's `KING` object
and into the next. -/
def runTrace (c : Nat) : List (List Nat) → List Nat
  | [] => []
  | l :: rest => callTrace c l ++ runTrace (c + 2 * l.length) rest

/-- One row of a pedigree (`.fam`) table as consumed by `FamGraph.__init__`
(lines 182-205); `"0"` means "no parent". -/
structure PedRow where
  id1 : String
  parent1 : String
  parent2 : String

/-- State of one `FamGraph` traversal (the node attributes of the copied
graph in `findFounders`, lines 190-193 and 225-244): node list in
dataframe order, founder ids, spouse sets (as lists in insertion order;
Python uses sets, whose iteration order is unspecified — the claims
settled below only exercise singleton spouse sets, where the order is
immaterial), assigned indices (`-1` = unassigned), and predecessor lists
(`networkx` insertion order: `parent1` edges are added before `parent2`
edges, and duplicate edges collapse). -/
structure FamState where
  nodes : List String
  founderIds : List String
  spouses : String → List String
  idx : String → Int
  parents : String → List String

/-- The `founder` node flag (line 192). -/
def FamState.founder (fs : FamState) (n : String) : Bool :=
  fs.founderIds.contains n

/-- Assignment `g.nodes[n]["idx"] = v`. -/
def FamState.setIdx (fs : FamState) (n : String) (v : Int) : FamState :=
  { fs with idx := fun s => if s = n then v else fs.idx s }

/-- Embeds `FamGraph.__init__` (lines 182-205): founders are the rows with
two `"0"` parents; every non-founder row makes its two parents spouses of
each other; every node starts with `idx = -1`. -/
def famInit (rows : List PedRow) : FamState :=
  { nodes := rows.map fun r => r.id1,
    founderIds :=
      (rows.filter fun r => r.parent1 == "0" && r.parent2 == "0").map fun r => r.id1,
    spouses := fun s =>
      (rows.filter fun r =>
          !(((rows.filter fun q => q.parent1 == "0" && q.parent2 == "0").map
              fun q => q.id1).contains r.id1)).foldl
        (fun acc r =>
          if r.parent1 = s ∧ ¬ acc.contains r.parent2 then acc ++ [r.parent2]
          else if r.parent2 = s ∧ ¬ acc.contains r.parent1 then acc ++ [r.parent1]
          else acc) [],
    idx := fun _ => -1,
    parents := fun s =>
      (((rows.filter fun r => r.id1 == s && r.parent1 != "0").map fun r => r.parent1) ++
        ((rows.filter fun r => r.id1 == s && r.parent2 != "0").map fun r => r.parent2)).dedup }

/-- The (node, spouse) visit order of one `addSpouses` pass (lines
207-222): nodes in graph order, each paired with its spouses in order.
Spouse sets and founder flags never change during a traversal, so the
pass visits the same pairs every time. -/
def spousePairs (fs : FamState) : List (String × String) :=
  fs.nodes.flatMap fun n => (fs.spouses n).map fun s => (n, s)

/-- Embeds `FamGraph.addSpouses` (lines 207-222) over the flattened visit
list.  For a founder node without an index: if its spouse is an unassigned
founder, draw a fresh couple with `randomCouple` (the exclusion list is
the `founders` accumulator) and assign both; if its spouse already has an
index, draw a single spouse with `randomFounder` anchored on that index.
Newly assigned indices are appended to the accumulator immediately. -/
def addSpousesPairs (king : KingState) :
    List (String × String) → FamState → List Nat → List Nat →
    Option (FamState × List Nat × List Nat)
  | [], fs, fd, tape => some (fs, fd, tape)
  | (node, sp) :: rest, fs, fd, tape =>
    if fs.founder node then
      if fs.idx node = -1 ∧ fs.idx sp = -1 ∧ fs.founder sp then
        match randomCouple king fd tape with
        | none => none
        | some ((n1, n2), tape2) =>
          addSpousesPairs king rest ((fs.setIdx node (Int.ofNat n1)).setIdx sp (Int.ofNat n2))
            (fd ++ [n1, n2]) tape2
      else if fs.idx node = -1 ∧ -1 < fs.idx sp then
        match randomFounder king (fs.idx sp).toNat fd tape with
        | none => none
        | some (n1, tape2) =>
          addSpousesPairs king rest (fs.setIdx node (Int.ofNat n1)) (fd ++ [n1]) tape2
      else addSpousesPairs king rest fs fd tape
    else addSpousesPairs king rest fs fd tape

/-- Result of one scan of `needsIndex` (lines 235-244): the destructuring
`id1x, id2x = [...]` crashes on a node without exactly two predecessors;
otherwise the first node whose two parents both have indices is selected;
a full scan without a selection leaves the loop spinning forever. -/
inductive ScanResult where
  | crash
  | notFound
  | found (node : String) (p1 p2 : Nat)

/-- The `for node in needsIndex` scan (lines 235-239). -/
def firstAssignable (fs : FamState) : List String → ScanResult
  | [] => ScanResult.notFound
  | n :: rest =>
    match fs.parents n with
    | [p1, p2] =>
      if -1 < fs.idx p1 ∧ -1 < fs.idx p2 then
        ScanResult.found n (fs.idx p1).toNat (fs.idx p2).toNat
      else firstAssignable fs rest
    | _ => ScanResult.crash

/-- The `while len(needsIndex) > 0` loop of `findFounders` (lines
234-244): pick the first assignable node, `addChild` it, record its index,
re-run `addSpouses`, remove it from the list and rescan.  Each round
removes exactly one node, so fuel `needs.length` makes the model total;
a scan that selects nothing models the loop spinning forever (`none`). -/
def traverse (pairs : List (String × String)) :
    Nat → KingState → FamState → List Nat → List Nat → List String →
    Option (KingState × FamState)
  | _, king, fs, _, _, [] => some (king, fs)
  | 0, _, _, _, _, _ :: _ => none
  | fuel + 1, king, fs, fd, tape, needs =>
    match firstAssignable fs needs with
    | ScanResult.crash => none
    | ScanResult.notFound => none
    | ScanResult.found node p1 p2 =>
      match addChild king node p1 p2 with
      | none => none
      | some (king2, cIdx) =>
        match addSpousesPairs king2 pairs (fs.setIdx node (Int.ofNat cIdx)) fd tape with
        | none => none
        | some (fs2, fd2, tape2) =>
          traverse pairs fuel king2 fs2 fd2 tape2 (needs.erase node)

/-- Splits a character list at every occurrence of `c`, like Python's
`str.split` with a one-character separator. -/
def splitOnCharAux (c : Char) : List Char → List Char → List (List Char)
  | [], acc => [acc.reverse]
  | x :: rest, acc =>
    if x = c then acc.reverse :: splitOnCharAux c rest []
    else splitOnCharAux c rest (x :: acc)

/-- Python `int(...)` on a digit string (only the digit form is exercised
by pedigree identifiers); empty or non-digit input raises `ValueError`. -/
def digitsToNat? (l : List Char) : Option Nat :=
  if l ≠ [] ∧ l.all fun ch => ch.isDigit then
    some (l.foldl (fun a ch => a * 10 + (ch.toNat - 48)) 0)
  else none

/-- Embeds `extractId` (lines 26-29): split the id at `"_"`, take the
second part, split it at `"-"`, and read off generation, branch, the
spouse flag (`1` iff the third token starts with `'i'`), and the
individual number.  Any missing token or non-numeric suffix is a crash. -/
def extractId (s : String) : Option (Nat × Nat × Nat × Nat) :=
  match splitOnCharAux '_' s.data [] with
  | _ :: t :: _ =>
    match splitOnCharAux '-' t [] with
    | a :: b :: c :: _ =>
      match c with
      | [] => none
      | c0 :: _ =>
        match digitsToNat? (a.drop 1), digitsToNat? (b.drop 1), digitsToNat? (c.drop 1) with
        | some g, some bb, some ind => some (g, bb, if c0 = 'i' then 1 else 0, ind)
        | _, _, _ => none
    | _ => none
  | _ => none

/-- Python list indexing `l[i]`, including the negative-index wraparound
used (unintentionally) by `king.samples[x]` when a founder keeps `idx = -1`
(line 257). -/
def pyGetStr (l : List String) (i : Int) : Option String :=
  if 0 ≤ i then l.get? i.toNat
  else if i.natAbs ≤ l.length then l.get? (l.length - i.natAbs)
  else none

/-- Embeds `FamGraph.findFounders` (lines 225-259) up to and including the
computation of the founder sample-id column `id1` that line 259 asserts to
be duplicate-free: run the initial `addSpouses` pass, traverse the
non-founder nodes, then for the founder nodes (in graph order) parse their
identifiers with `extractId` and look up their assigned sample ids.  The
returned list is exactly the column whose duplicate-freeness the source
then asserts (`assert tmp.shape[0] == tmp.drop_duplicates("id1").shape[0]`). -/
def findFoundersCore (king : KingState) (fs : FamState) (tape : List Nat) :
    Option (List String) :=
  match addSpousesPairs king (spousePairs fs) fs [] tape with
  | none => none
  | some (fs1, fd1, tape1) =>
    match traverse (spousePairs fs)
        (fs.nodes.filter fun n => !fs.founder n).length king fs1 fd1 tape1
        (fs.nodes.filter fun n => !fs.founder n) with
    | none => none
    | some (king2, fs2) =>
      match (fs.nodes.filter fun n => fs.founder n).mapM extractId with
      | none => none
      | some _ =>
        (fs.nodes.filter fun n => fs.founder n).mapM fun n =>
          pyGetStr king2.samples (fs2.idx n)

/-- Bin boundaries `[-1, 0, 1]` (two bins `(-1, 0]` and `(0, 1]`; bin 0 is
the "unrelated" bin, as in the default configuration where it likewise has
positive probability). -/
def bndW : List ℚ := [-1, 0, 1]

/-- Record list for the C1 counterexample: samples `A` and `C` share
`PropIBD = 1/2`; every other pair is absent, hence unrelated. -/
def recsC1 : List (String × String × ℚ) := [("A", "C", mkRat 1 2)]

/-- KING state for the C1 counterexample: three original samples, no
samples to add, `maxPropIBD = 1/10`. -/
def kingC1 : KingState :=
  kingInitD recsC1 (mkBins bndW) ["A", "B", "C"] [] (mkRat 1 10)

/-- Pedigree for the C2 counterexample: two founder couples, each with one
child; identifiers in the `{iter}_g{gen}-b{branch}-{i|s}{ind}` format
consumed by `extractId`. -/
def rowsC2 : List PedRow :=
  [⟨"1_g1-b1-i1", "0", "0"⟩, ⟨"1_g1-b1-s1", "0", "0"⟩,
   ⟨"1_g1-b2-i1", "0", "0"⟩, ⟨"1_g1-b2-s1", "0", "0"⟩,
   ⟨"1_g2-b1-i1", "1_g1-b1-i1", "1_g1-b1-s1"⟩,
   ⟨"1_g2-b2-i1", "1_g1-b2-i1", "1_g1-b2-s1"⟩]

/-- Graph state for the C2 counterexample. -/
def famC2 : FamState := famInit rowsC2

/-- KING state for the C2 counterexample: four pairwise-unrelated original
samples `A,B,C,D` (empty KING record list) plus the two children declared
by the pedigree. -/
def kingC2 : KingState :=
  kingInitD [] (mkBins bndW) ["A", "B", "C", "D"]
    ["1_g2-b1-i1", "1_g2-b2-i1"] (mkRat 1 10)

/-- Witness state for the `addChild` claims: two unrelated originals and
one child slot `K`. -/
def stW : KingState :=
  kingInitD [] (mkBins bndW) ["A", "B"] ["K"] (mkRat 1 10)

/-- State for the C5 counterexample: originals `A,B` with
`PropIBD(A,B) = 1/2` and a child slot `K`. -/
def stC5 : KingState :=
  kingInitD [("A", "B", mkRat 1 2)] (mkBins bndW) ["A", "B"] ["K"] (mkRat 1 10)

/-- State for the C6/C7 witnesses: two originals, empty ledger. -/
def stC6 : KingState :=
  kingInitD [] (mkBins bndW) ["A", "B"] [] (mkRat 1 10)

/-- `qmean` computes the exact arithmetic mean `(a + b) / 2`. -/
theorem qmean_eq (a b : ℚ) : qmean a b = (a + b) / 2 := by
  have ha : ((a.den : ℚ)) ≠ 0 := by exact_mod_cast a.den_nz
  have hb : ((b.den : ℚ)) ≠ 0 := by exact_mod_cast b.den_nz
  have hA : (a.num : ℚ) = a * a.den := (div_eq_iff ha).1 (Rat.num_div_den a)
  have hB : (b.num : ℚ) = b * b.den := (div_eq_iff hb).1 (Rat.num_div_den b)
  rw [qmean, Rat.mkRat_eq_div]
  push_cast
  rw [hA, hB, div_eq_div_iff (by positivity) (by norm_num)]
  ring

/-- Claim C3: after every completed call `addChild(childId, p1, p2)`, the
child's resulting relatedness to every sample `x` equals exactly the
arithmetic mean of the two parents' (pre-call) relatedness to `x`. -/
theorem C3_addChild_kin_mean (st : KingState) (childId : String) (p1 p2 x : Nat)
    (h : (addChild st childId p1 p2).isSome = true) :
    (addChildD st childId p1 p2).1.kinArray (addChildD st childId p1 p2).2 x
      = (st.kinArray p1 x + st.kinArray p2 x) / 2 := by
  rw [← qmean_eq]
  simp only [addChildD, addChild] at h ⊢
  by_cases hmem : childId ∈ st.samples
  · simp only [if_pos hmem] at h ⊢
    cases hd : childDisc st p1 p2 with
    | none => rw [hd] at h; simp at h
    | some kD => simp
  · simp [hmem] at h

theorem C3_addChild_kin_mean_witness :
    (addChild stW "K" 0 1).isSome = true ∧
    (addChildD stW "K" 0 1).1.kinArray (addChildD stW "K" 0 1).2 0
      = (stW.kinArray 0 0 + stW.kinArray 1 0) / 2 :=
  ⟨by decide, C3_addChild_kin_mean stW "K" 0 1 0 (by decide)⟩

/-- Claim C4: `kinArray` stays symmetric across every completed `addChild`
call: if the matrix was symmetric before the call, then for all indices
`i, j` the updated matrix satisfies `matrix[i][j] = matrix[j][i]`. -/
theorem C4_addChild_symmetric (st : KingState) (childId : String) (p1 p2 i j : Nat)
    (hsym : ∀ a b, st.kinArray a b = st.kinArray b a)
    (h : (addChild st childId p1 p2).isSome = true) :
    (addChildD st childId p1 p2).1.kinArray i j
      = (addChildD st childId p1 p2).1.kinArray j i := by
  simp only [addChildD, addChild] at h ⊢
  by_cases hmem : childId ∈ st.samples
  · simp only [if_pos hmem] at h ⊢
    cases hd : childDisc st p1 p2 with
    | none => rw [hd] at h; simp at h
    | some kD =>
      simp only [Option.getD_some]
      by_cases hi : i = st.samples.indexOf childId
      · by_cases hj : j = st.samples.indexOf childId <;> simp [hi, hj]
      · by_cases hj : j = st.samples.indexOf childId
        · simp [hi, hj]
        · simp [hi, hj, hsym i j]
  · simp [hmem] at h

theorem C4_addChild_symmetric_witness :
    (addChild stW "K" 0 1).isSome = true ∧
    (addChildD stW "K" 0 1).1.kinArray 0 2 = (addChildD stW "K" 0 1).1.kinArray 2 0 :=
  ⟨by decide, C4_addChild_symmetric stW "K" 0 1 0 2 (fun _ _ => rfl) (by decide)⟩

/-- Claim C1 (refuted, code bug): with the non-empty exclusion set `[2]`
(sample `C`, already placed as a founder) and a realisable draw sequence —
bin 0, then unrelated-pair index 1 (both have positive probability) —
`randomCouple` returns the pair `(0, 1)` even though the returned sample
`0` has relatedness `1/2 > maxPropIBD = 1/10` to the excluded sample `2`:
the unrelated-bin branch (lines 107-116) never consults
`checkAgainstFounders`, contradicting both the claim and the code's own
rule (2) in the comment at lines 178-181. -/
theorem C1_randomCouple_skips_exclusion :
    randomCouple kingC1 [2] [0, 1] = some ((0, 1), []) ∧
    ([2] : List Nat) ≠ [] ∧
    kingC1.maxPropIBD < kingC1.kinArray 0 2 := by decide

/-- Claim C2 (refuted, code bug): on a pedigree of two founder couples
(each with one child) over four pairwise-unrelated original samples, the
realisable draw sequence `[0, 1, 0, 1]` (unrelated bin, pair `(A, B)`,
twice — the second draw is not rejected because the unrelated-bin branch
ignores the `founders` exclusion list) completes the full traversal and
produces the founder sample-id column `["A", "B", "A", "B"]`, which is NOT
duplicate-free: the `assert` at line 259 fires on a well-formed input. -/
theorem C2_duplicate_founder_assignment :
    findFoundersCore kingC2 famC2 [0, 1, 0, 1] = some ["A", "B", "A", "B"] ∧
    ¬ (["A", "B", "A", "B"] : List String).Nodup := by decide

/-- Claim C9 (refuted, code bug): for the configured boundaries `[0, 1]`
(single bin `(0, 1]`), the value `0` is inside `[0, 1]` but outside every
bin, and `discretize` silently returns Python `None` (`noBin`) instead of
surfacing an error — the loop at lines 18-20 simply falls through. -/
theorem C9_discretize_silent_none :
    (0 : ℚ) ≤ 0 ∧ (0 : ℚ) ≤ 1 ∧
    discretize (mkBins [0, 1]) 0 = DiscResult.noBin := by decide

/-- Counterexample to claim C5: after `addChild` synthesises child `2`
from parents `0` and `1`, the pair `(2, 0)` has known kinship `1/4`, which
lies in bin `1`; yet `2` does not appear in sample `0`'s `binArray` row at
bin `1` (the row is still `[1]`): `addChild` (lines 97-98) updates only
the child's own row, so the claimed symmetric invariant fails. -/
theorem C5_binindex_not_symmetric :
    (addChild stC5 "K" 0 1).map (fun r => r.1.kinArray 2 0) = some (mkRat 1 4) ∧
    discretize stC5.bins (mkRat 1 4) = DiscResult.bin 1 ∧
    (addChild stC5 "K" 0 1).map (fun r => r.1.binArray 2 1) = some [0, 1] ∧
    (addChild stC5 "K" 0 1).map (fun r => r.1.binArray 0 1) = some [1] ∧
    (2 : Nat) ∉ ([1] : List Nat) := by decide

/-- Counterexample to claim C6: `addFounders([0])` on a fresh ledger
appends exactly ONE value (the current counter, `0`) to sample `0`'s
ledger entry — not two values — while the counter advances by `2`
(lines 158-161). -/
theorem C6_single_value_appended :
    (addFounders stC6 [0]).map (fun s => s.founderColumn.getD 0 []) = some [0] ∧
    (addFounders stC6 [0]).map (fun s => s.nth_founder) = some 2 ∧
    ([0] : List Nat).length = 1 := by decide

theorem getD_set_self (l : List (List Nat)) (x : Nat) (v : List Nat)
    (hx : x < l.length) : (l.set x v).getD x [] = v := by
  simp [List.getD, List.getElem?_set_eq_of_lt _ hx]

theorem getD_set_ne (l : List (List Nat)) (x i : Nat) (v : List Nat)
    (h : x ≠ i) : (l.set x v).getD i [] = l.getD i [] := by
  simp [List.getD, List.getElem?_set_ne, h]

theorem issuedAt_nil (c i : Nat) : issuedAt c [] i = [] := rfl

theorem issuedAt_length (c : Nat) (l : List Nat) (i : Nat) :
    (issuedAt c l i).length = l.count i := by
  induction l generalizing c with
  | nil => simp [issuedAt]
  | cons x rest ih =>
    by_cases hx : x = i <;>
      simp [issuedAt, hx, ih, List.count_cons]

theorem addFounders_isSome_cons (st : KingState) (x : Nat) (rest : List Nat)
    (h : (addFounders st (x :: rest)).isSome = true) :
    x < st.founderColumn.length := by
  by_contra hx
  simp [addFounders, hx] at h

theorem addFounders_nth (st : KingState) (l : List Nat) (res : KingState)
    (h : addFounders st l = some res) :
    res.nth_founder = st.nth_founder + 2 * l.length := by
  induction l generalizing st with
  | nil =>
    rw [addFounders] at h
    cases h
    simp
  | cons x rest ih =>
    rw [addFounders] at h
    by_cases hx : x < st.founderColumn.length
    · rw [if_pos hx] at h
      have := ih _ h
      simp only [List.length_cons]
      rw [this]
      ring
    · rw [if_neg hx] at h
      cases h

theorem addFounders_col (st : KingState) (l : List Nat) (i : Nat) (res : KingState)
    (h : addFounders st l = some res) :
    res.founderColumn.getD i []
      = st.founderColumn.getD i [] ++ issuedAt st.nth_founder l i := by
  induction l generalizing st with
  | nil =>
    rw [addFounders] at h
    cases h
    simp [issuedAt]
  | cons x rest ih =>
    rw [addFounders] at h
    by_cases hx : x < st.founderColumn.length
    · rw [if_pos hx] at h
      have hih := ih _ h
      rw [hih]
      simp only [issuedAt]
      by_cases hxi : x = i
      · subst hxi
        rw [getD_set_self _ _ _ hx]
        simp
      · rw [getD_set_ne _ _ _ _ hxi]
        simp [hxi]
    · rw [if_neg hx] at h
      cases h

theorem mem_issuedAt_mem_callTrace (c : Nat) (l : List Nat) (i v : Nat)
    (h : v ∈ issuedAt c l i) : v ∈ callTrace c l := by
  induction l generalizing c with
  | nil => simp [issuedAt] at h
  | cons x rest ih =>
    simp only [issuedAt] at h
    rw [List.mem_append] at h
    rcases h with h | h
    · by_cases hx : x = i
      · simp [hx] at h
        simp [callTrace, h]
      · simp [hx] at h
    · exact List.mem_cons_of_mem _ (ih _ h)

theorem mem_callTrace_bounds (c : Nat) (l : List Nat) (v : Nat)
    (h : v ∈ callTrace c l) : c ≤ v ∧ v < c + 2 * l.length ∧ ∃ k, v = c + 2 * k := by
  induction l generalizing c with
  | nil => simp [callTrace] at h
  | cons x rest ih =>
    simp only [callTrace, List.mem_cons] at h
    rcases h with rfl | h
    · exact ⟨le_refl _, by simp, 0, by simp⟩
    · obtain ⟨h1, h2, k, hk⟩ := ih _ h
      refine ⟨by omega, by simp only [List.length_cons]; omega, k + 1, by omega⟩

theorem callTrace_pairwise (c : Nat) (l : List Nat) :
    List.Pairwise (· < ·) (callTrace c l) := by
  induction l generalizing c with
  | nil => simp [callTrace]
  | cons x rest ih =>
    simp only [callTrace]
    refine List.Pairwise.cons (fun b hb => ?_) (ih _)
    have := (mem_callTrace_bounds _ _ _ hb).1
    omega

theorem mem_runTrace_bounds (c : Nat) (calls : List (List Nat)) (v : Nat)
    (h : v ∈ runTrace c calls) : c ≤ v ∧ ∃ k, v = c + 2 * k := by
  induction calls generalizing c with
  | nil => simp [runTrace] at h
  | cons l rest ih =>
    simp only [runTrace] at h
    rw [List.mem_append] at h
    rcases h with h | h
    · obtain ⟨h1, _, k, hk⟩ := mem_callTrace_bounds _ _ _ h
      exact ⟨h1, k, hk⟩
    · obtain ⟨h1, k, hk⟩ := ih _ h
      exact ⟨by omega, k + l.length, by omega⟩

theorem runTrace_pairwise (c : Nat) (calls : List (List Nat)) :
    List.Pairwise (· < ·) (runTrace c calls) := by
  induction calls generalizing c with
  | nil => simp [runTrace]
  | cons l rest ih =>
    simp only [runTrace]
    rw [List.pairwise_append]
    refine ⟨callTrace_pairwise _ _, ih _, fun a ha b hb => ?_⟩
    have h1 := (mem_callTrace_bounds _ _ _ ha).2.1
    have h2 := (mem_runTrace_bounds _ _ _ hb).1
    omega

/-- Claim C6 as amended: for every completed `addFounders(idxList)` call,
ONE new value of the global founder-slot counter is appended to a sample's
ledger entry per occurrence of its index in the list (each such even value
standing for a pair of haploid slots), and the counter advances by 2 per
index. -/
theorem C6_addFounders_amended (st : KingState) (l : List Nat) (i : Nat)
    (h : (addFounders st l).isSome = true) :
    (addFoundersD st l).nth_founder = st.nth_founder + 2 * l.length ∧
    ((addFoundersD st l).founderColumn.getD i []).length
      = (st.founderColumn.getD i []).length + l.count i := by
  obtain ⟨res, hres⟩ := Option.isSome_iff_exists.mp h
  rw [addFoundersD, hres, Option.getD_some]
  refine ⟨addFounders_nth st l res hres, ?_⟩
  rw [addFounders_col st l i res hres]
  simp [issuedAt_length]

theorem C6_addFounders_amended_witness :
    (addFounders stC6 [0, 1, 0]).isSome = true ∧
    ((addFoundersD stC6 [0, 1, 0]).nth_founder
        = stC6.nth_founder + 2 * ([0, 1, 0] : List Nat).length ∧
      ((addFoundersD stC6 [0, 1, 0]).founderColumn.getD 0 []).length
        = (stC6.founderColumn.getD 0 []).length + ([0, 1, 0] : List Nat).count 0) :=
  ⟨by decide, C6_addFounders_amended stC6 [0, 1, 0] 0 (by decide)⟩

/-- Claim C7: founder-slot identifiers are strictly increasing even
numbers, globally unique across a run.  `runTrace 0 calls` is the id
sequence issued by a run that starts the counter at 0 and threads it from
call to call (as `__main__` lines 351-358 do across pedigrees and
iterations): it is strictly increasing (hence all ids are distinct) and
every id is even; and each completed `addFounders` call advances the
counter by exactly 2 per index while appending to the ledger precisely the
ids `issuedAt` — all of which belong to that call's `callTrace` slice of
the global sequence. -/
theorem C7_founder_slot_ids (calls : List (List Nat)) (v : Nat) (st : KingState)
    (l : List Nat) (i w : Nat)
    (hv : v ∈ runTrace 0 calls)
    (hw : w ∈ issuedAt st.nth_founder l i)
    (h : (addFounders st l).isSome = true) :
    List.Pairwise (· < ·) (runTrace 0 calls) ∧ 2 ∣ v ∧
    (addFoundersD st l).nth_founder = st.nth_founder + 2 * l.length ∧
    (addFoundersD st l).founderColumn.getD i []
      = st.founderColumn.getD i [] ++ issuedAt st.nth_founder l i ∧
    w ∈ callTrace st.nth_founder l := by
  obtain ⟨res, hres⟩ := Option.isSome_iff_exists.mp h
  rw [addFoundersD, hres, Option.getD_some]
  obtain ⟨h0, k, hk⟩ := mem_runTrace_bounds 0 calls v hv
  exact ⟨runTrace_pairwise 0 calls, ⟨k, by omega⟩, addFounders_nth st l res hres,
    addFounders_col st l i res hres, mem_issuedAt_mem_callTrace _ _ _ _ hw⟩

theorem C7_founder_slot_ids_witness :
    List.Pairwise (· < ·) (runTrace 0 [[0], [1, 0]]) ∧ 2 ∣ 2 ∧
    (addFoundersD stC6 [0, 1]).nth_founder
      = stC6.nth_founder + 2 * ([0, 1] : List Nat).length ∧
    (addFoundersD stC6 [0, 1]).founderColumn.getD 0 []
      = stC6.founderColumn.getD 0 [] ++ issuedAt stC6.nth_founder [0, 1] 0 ∧
    0 ∈ callTrace stC6.nth_founder [0, 1] :=
  C7_founder_slot_ids [[0], [1, 0]] 2 stC6 [0, 1] 0 0 (by decide) (by decide) (by decide)

theorem scanBins_shift (v : ℚ) (l : List (ℚ × ℚ)) (n : Nat) :
    scanBins v l n = (scanBins v l 0).map (fun j => j + n) := by
  induction l generalizing n with
  | nil => simp [scanBins]
  | cons p rest ih =>
    by_cases hc : p.1 < v ∧ v ≤ p.2
    · simp [scanBins, hc]
    · rw [scanBins, if_neg hc, scanBins, if_neg hc, ih (n + 1), ih 1,
        Option.map_map]
      congr 1
      funext j
      simp only [Function.comp_apply]
      omega

theorem pairwise_head_le_getD (b : ℚ) (rest : List ℚ)
    (hp : (b :: rest).Pairwise (· < ·)) (i : Nat) (hi : i < (b :: rest).length) :
    b ≤ (b :: rest).getD i 0 := by
  cases i with
  | zero => simp
  | succ n =>
    have hn : n < rest.length := by simpa using hi
    rw [List.getD_cons_succ, List.getD_eq_getElem _ _ hn]
    exact le_of_lt ((List.pairwise_cons.mp hp).1 _ (List.getElem_mem _))

theorem scanBins_mkBins (bounds : List ℚ) (v : ℚ) (i : Nat)
    (hsort : bounds.Pairwise (· < ·))
    (hi : i + 1 < bounds.length)
    (hlo : bounds.getD i 0 < v) (hhi : v ≤ bounds.getD (i + 1) 0) :
    scanBins v (mkBins bounds) 0 = some i := by
  induction i generalizing bounds with
  | zero =>
    match bounds with
    | [] => simp at hi
    | [a] => simp at hi
    | a :: b :: rest =>
      simp only [List.getD_cons_zero, List.getD_cons_succ] at hlo hhi
      rw [mkBins, scanBins, if_pos ⟨hlo, hhi⟩]
  | succ n ih =>
    match bounds with
    | [] => simp at hi
    | [a] => simp at hi
    | a :: b :: rest =>
      have hlen : n + 1 < (b :: rest).length := by
        simpa using Nat.lt_of_succ_lt_succ hi
      have hlo2 : (b :: rest).getD n 0 < v := by
        simpa [List.getD_cons_succ] using hlo
      have hhi2 : v ≤ (b :: rest).getD (n + 1) 0 := by
        simpa [List.getD_cons_succ] using hhi
      have hb : b ≤ (b :: rest).getD n 0 :=
        pairwise_head_le_getD b rest (by exact hsort.of_cons) n
          (Nat.lt_of_succ_lt hlen)
      have hnot : ¬(a < v ∧ v ≤ b) := by
        rintro ⟨-, hvb⟩
        linarith
      rw [mkBins, scanBins, if_neg hnot, scanBins_shift,
        ih (b :: rest) hsort.of_cons hlen hlo2 hhi2]
      rfl

/-- Claim C8: for strictly increasing configured boundaries and any value
`v ∈ (bounds[i], bounds[i+1]]` inside `[0, 1]`, `discretize` returns
exactly bin `i` (a value at a shared boundary `bounds[i+1]` thus belongs
to bin `i`, the upper-inclusive one); and any value `w` with `w < 0` or
`w > 1` fails the out-of-range assertion. -/
theorem C8_discretize_bins (bounds : List ℚ) (v w : ℚ) (i : Nat)
    (hsort : bounds.Pairwise (· < ·))
    (hi : i + 1 < bounds.length)
    (hlo : bounds.getD i 0 < v) (hhi : v ≤ bounds.getD (i + 1) 0)
    (h0 : 0 ≤ v) (h1 : v ≤ 1)
    (hw : w < 0 ∨ 1 < w) :
    discretize (mkBins bounds) v = DiscResult.bin i ∧
    discretize (mkBins bounds) w = DiscResult.assertFail := by
  constructor
  · rw [discretize, if_pos ⟨h0, h1⟩, scanBins_mkBins bounds v i hsort hi hlo hhi]
  · rw [discretize, if_neg]
    rintro ⟨hw0, hw1⟩
    rcases hw with hw | hw <;> linarith

theorem C8_discretize_bins_witness :
    discretize (mkBins bndW) 1 = DiscResult.bin 1 ∧
    discretize (mkBins bndW) 2 = DiscResult.assertFail :=
  C8_discretize_bins bndW 1 2 1 (by decide) (by decide) (by decide) (by decide)
    (by decide) (by decide) (Or.inr (by decide))

theorem initStep_mono (bins : List (ℚ × ℚ)) (samples : List String)
    (acc : InitAcc) (r : String × String × ℚ) (acc' : InitAcc)
    (h : initStep bins samples acc r = some acc')
    (a d x : Nat) (hx : x ∈ acc.binArray a d) : x ∈ acc'.binArray a d := by
  rw [initStep] at h
  cases hdisc : discretize bins r.2.2 with
  | assertFail => rw [hdisc] at h; simp at h
  | noBin => rw [hdisc] at h; simp at h
  | bin b2 =>
    rw [hdisc] at h
    simp only [] at h
    by_cases hmem : r.1 ∈ samples ∧ r.2.1 ∈ samples
    · rw [if_pos hmem] at h
      cases h
      simp only []
      split_ifs <;> simp [List.mem_append, hx]
    · rw [if_neg hmem] at h
      simp at h

theorem initStep_adds (bins : List (ℚ × ℚ)) (samples : List String)
    (acc : InitAcc) (r : String × String × ℚ) (acc' : InitAcc) (b : Nat)
    (h : initStep bins samples acc r = some acc')
    (hb : discretize bins r.2.2 = DiscResult.bin b) :
    samples.indexOf r.2.1 ∈ acc'.binArray (samples.indexOf r.1) b ∧
    samples.indexOf r.1 ∈ acc'.binArray (samples.indexOf r.2.1) b := by
  rw [initStep, hb] at h
  simp only [] at h
  by_cases hmem : r.1 ∈ samples ∧ r.2.1 ∈ samples
  · rw [if_pos hmem] at h
    cases h
    simp only []
    by_cases hij : samples.indexOf r.1 = samples.indexOf r.2.1
    · constructor <;> simp [hij, List.mem_append]
    · have hji := Ne.symm hij
      constructor <;> simp [hij, hji, List.mem_append]
  · rw [if_neg hmem] at h
    simp at h

theorem initFold_mono (bins : List (ℚ × ℚ)) (samples : List String)
    (recs : List (String × String × ℚ)) (acc acc' : InitAcc)
    (h : List.foldlM (initStep bins samples) acc recs = some acc')
    (a d x : Nat) (hx : x ∈ acc.binArray a d) : x ∈ acc'.binArray a d := by
  induction recs generalizing acc with
  | nil =>
    simp only [List.foldlM_nil] at h
    cases h
    exact hx
  | cons r rest ih =>
    simp only [List.foldlM_cons] at h
    cases hstep : initStep bins samples acc r with
    | none => rw [hstep] at h; simp at h
    | some a1 =>
      rw [hstep] at h
      exact ih a1 h (initStep_mono bins samples acc r a1 hstep a d x hx)

theorem initFold_adds (bins : List (ℚ × ℚ)) (samples : List String)
    (recs : List (String × String × ℚ)) (acc acc' : InitAcc)
    (h : List.foldlM (initStep bins samples) acc recs = some acc')
    (r : String × String × ℚ) (hr : r ∈ recs) (b : Nat)
    (hb : discretize bins r.2.2 = DiscResult.bin b) :
    samples.indexOf r.2.1 ∈ acc'.binArray (samples.indexOf r.1) b ∧
    samples.indexOf r.1 ∈ acc'.binArray (samples.indexOf r.2.1) b := by
  induction recs generalizing acc with
  | nil => simp at hr
  | cons r0 rest ih =>
    simp only [List.foldlM_cons] at h
    cases hstep : initStep bins samples acc r0 with
    | none => rw [hstep] at h; simp at h
    | some a1 =>
      rw [hstep] at h
      rcases List.mem_cons.mp hr with rfl | hr2
      · obtain ⟨m1, m2⟩ := initStep_adds bins samples acc r a1 b hstep hb
        exact ⟨initFold_mono bins samples rest a1 acc' h _ _ _ m1,
          initFold_mono bins samples rest a1 acc' h _ _ _ m2⟩
      · exact ih a1 h hr2

/-- Claim C5 as amended: the BinIndex is symmetric AFTER CONSTRUCTION —
for every input record `(id1, id2, v)` whose value lies in bin `b`, each
endpoint's index appears in the other's `binArray` row at bin `b` — but
`addChild` does NOT maintain the invariant: it leaves every other sample's
`binArray` row untouched, APPENDS the fresh entries to the child's own row
without clearing it (so entries from earlier calls survive), and only the
child's `binCounts` row is recomputed from scratch. -/
theorem C5_binindex_amended (records : List (String × String × ℚ))
    (bp : List (ℚ × ℚ)) (sl ta : List String) (mq : ℚ)
    (r : String × String × ℚ) (b : Nat)
    (st : KingState) (cid : String) (p1 p2 i d : Nat)
    (h1 : (kingInit records bp sl ta mq).isSome = true)
    (h2 : r ∈ records)
    (h3 : discretize bp r.2.2 = DiscResult.bin b)
    (h4 : (addChild st cid p1 p2).isSome = true)
    (h5 : i ≠ st.samples.indexOf cid) :
    ((sl ++ ta).indexOf r.2.1
        ∈ (kingInitD records bp sl ta mq).binArray ((sl ++ ta).indexOf r.1) b ∧
      (sl ++ ta).indexOf r.1
        ∈ (kingInitD records bp sl ta mq).binArray ((sl ++ ta).indexOf r.2.1) b) ∧
    (addChildD st cid p1 p2).1.binArray i d = st.binArray i d ∧
    (addChildD st cid p1 p2).1.binArray (st.samples.indexOf cid) d
      = st.binArray (st.samples.indexOf cid) d
        ++ newBinEntries ((childDisc st p1 p2).getD []) d ∧
    (addChildD st cid p1 p2).1.binCounts (st.samples.indexOf cid) d
      = ((childDisc st p1 p2).getD []).count d := by
  constructor
  · rw [kingInit] at h1
    rw [kingInitD, kingInit]
    cases hfold : List.foldlM (initStep bp (sl ++ ta))
        { kinArray := fun _ _ => 0, binArray := fun _ _ => [],
          binCounts := fun _ _ => 0 } records with
    | none => rw [hfold] at h1; simp at h1
    | some acc =>
      simpa using initFold_adds bp (sl ++ ta) records _ acc hfold r h2 b h3
  · simp only [addChildD, addChild] at h4 ⊢
    by_cases hmem : cid ∈ st.samples
    · simp only [if_pos hmem] at h4 ⊢
      cases hd : childDisc st p1 p2 with
      | none => rw [hd] at h4; simp at h4
      | some kD =>
        refine ⟨by simp [h5], by simp, by simp⟩
    · simp [hmem] at h4

theorem C5_binindex_amended_witness :
    ((1 : Nat) ∈ stC5.binArray 0 1 ∧ (0 : Nat) ∈ stC5.binArray 1 1) ∧
    (addChildD stC5 "K" 0 1).1.binArray 0 1 = stC5.binArray 0 1 ∧
    (addChildD stC5 "K" 0 1).1.binArray 2 1
      = stC5.binArray 2 1 ++ newBinEntries ((childDisc stC5 0 1).getD []) 1 ∧
    (addChildD stC5 "K" 0 1).1.binCounts 2 1
      = ((childDisc stC5 0 1).getD []).count 1 := by
  have h := C5_binindex_amended [("A", "B", mkRat 1 2)] (mkBins bndW) ["A", "B"]
    ["K"] (mkRat 1 10) ("A", "B", mkRat 1 2) 1 stC5 "K" 0 1 0 1
    (by decide) (by decide) (by decide) (by decide) (by decide)
  exact ⟨⟨h.1.1, h.1.2⟩, h.2.1, h.2.2.1, h.2.2.2⟩

theorem kingInit_fields (records : List (String × String × ℚ)) (bp : List (ℚ × ℚ))
    (sl ta : List String) (mq : ℚ)
    (h : (kingInit records bp sl ta mq).isSome = true) :
    (kingInitD records bp sl ta mq).samples = sl ++ ta ∧
    (kingInitD records bp sl ta mq).orig_n = sl.length := by
  rw [kingInit] at h
  rw [kingInitD, kingInit]
  cases hfold : List.foldlM (initStep bp (sl ++ ta))
      { kinArray := fun _ _ => 0, binArray := fun _ _ => [],
        binCounts := fun _ _ => 0 } records with
  | none => rw [hfold] at h; simp at h
  | some acc => simp

/-- Claim C10: constructing a `KinshipIndex` extends the caller-supplied
sample list with the pedigree's synthetic sample ids (the in-place
`samplesList += samplesToAdd` of line 41, modelled by threading the
returned list exactly as `__main__` line 347 passes the same mutated list
object to the next construction); consequently a later pedigree's `orig_n`
counts the earlier pedigree's synthetic samples as originals. -/
theorem C10_init_mutates_sample_list (records1 records2 : List (String × String × ℚ))
    (bp1 bp2 : List (ℚ × ℚ)) (samples toAdd1 toAdd2 : List String) (m1 m2 : ℚ)
    (h1 : (kingInit records1 bp1 samples toAdd1 m1).isSome = true)
    (h2 : (kingInit records2 bp2 (kingInitD records1 bp1 samples toAdd1 m1).samples
        toAdd2 m2).isSome = true) :
    (kingInitD records1 bp1 samples toAdd1 m1).samples = samples ++ toAdd1 ∧
    (kingInitD records2 bp2 (kingInitD records1 bp1 samples toAdd1 m1).samples
        toAdd2 m2).orig_n = samples.length + toAdd1.length := by
  obtain ⟨hs1, _⟩ := kingInit_fields records1 bp1 samples toAdd1 m1 h1
  obtain ⟨_, ho2⟩ := kingInit_fields records2 bp2 _ toAdd2 m2 h2
  refine ⟨hs1, ?_⟩
  rw [ho2, hs1, List.length_append]

theorem C10_init_mutates_sample_list_witness :
    (kingInitD [] (mkBins bndW) ["A"] ["X"] (mkRat 1 10)).samples
      = ["A"] ++ ["X"] ∧
    (kingInitD [] (mkBins bndW)
        (kingInitD [] (mkBins bndW) ["A"] ["X"] (mkRat 1 10)).samples
        ["Y"] (mkRat 1 10)).orig_n
      = (["A"] : List String).length + (["X"] : List String).length :=
  C10_init_mutates_sample_list [] [] (mkBins bndW) (mkBins bndW) ["A"] ["X"] ["Y"]
    (mkRat 1 10) (mkRat 1 10) (by decide) (by decide)

theorem randomFounder_excl_aux (st : KingState) (idx : Nat) (check : List Nat) :
    ∀ (k : Nat) (tape : List Nat), tape.length ≤ k →
    ∀ (m : Nat) (rest : List Nat),
      randomFounder st idx check tape = some (m, rest) → check ≠ [] →
      m < st.orig_n ∧ ∀ n ∈ check, st.kinArray m n ≤ st.maxPropIBD ∧ m ≠ n := by
  intro k
  induction k with
  | zero =>
    intro tape hlen m rest h hc
    have : tape = [] := List.eq_nil_of_length_eq_zero (Nat.le_zero.mp hlen)
    subst this
    simp [randomFounder] at h
  | succ k ih =>
    intro tape hlen m rest h hc
    match tape with
    | [] => simp [randomFounder] at h
    | v :: rest0 =>
      have hlen0 : rest0.length ≤ k := by
        simp only [List.length_cons] at hlen
        omega
      rw [randomFounder.eq_def] at h
      simp only [] at h
      by_cases hz : st.binCounts idx (v % st.n_bins) = 0
      · rw [if_pos hz] at h
        exact ih rest0 hlen0 m rest h hc
      · rw [if_neg hz] at h
        match rest0 with
        | [] => simp at h
        | w :: rest2 =>
          have hlen2 : rest2.length ≤ k := by
            simp only [List.length_cons] at hlen0 ⊢
            omega
          simp only [] at h
          by_cases hrow : (st.binArray idx (v % st.n_bins)).length = 0
          · rw [if_pos hrow] at h
            simp at h
          · rw [if_neg hrow] at h
            by_cases hm : st.orig_n ≤
                (st.binArray idx (v % st.n_bins)).getD
                  (w % (st.binArray idx (v % st.n_bins)).length) 0
            · rw [if_pos hm] at h
              exact ih rest2 hlen2 m rest h hc
            · rw [if_neg hm] at h
              by_cases hrej : check ≠ [] ∧ check.any fun n =>
                  decide (st.maxPropIBD < st.kinArray
                    ((st.binArray idx (v % st.n_bins)).getD
                      (w % (st.binArray idx (v % st.n_bins)).length) 0) n)
                  || decide ((st.binArray idx (v % st.n_bins)).getD
                      (w % (st.binArray idx (v % st.n_bins)).length) 0 = n)
              · rw [if_pos hrej] at h
                exact ih rest2 hlen2 m rest h hc
              · rw [if_neg hrej] at h
                cases h
                refine ⟨Nat.lt_of_not_le hm, fun n hn => ?_⟩
                rw [not_and] at hrej
                have hany := hrej hc
                simp only [List.any_eq_true, Bool.or_eq_true, decide_eq_true_eq,
                  not_exists] at hany
                have h5 := hany n
                push_neg at h5
                exact h5 hn

/-- The half of the exclusion guarantee that the code does enforce: a
sample returned by `randomFounder` with a non-empty exclusion list is an
original sample, is related at most `maxPropIBD` to every excluded index,
and differs from every excluded index (lines 147-154). -/
theorem randomFounder_respects_exclusion (st : KingState) (idx : Nat)
    (check tape : List Nat) (m : Nat) (rest : List Nat)
    (h : randomFounder st idx check tape = some (m, rest)) (hc : check ≠ []) :
    m < st.orig_n ∧ ∀ n ∈ check, st.kinArray m n ≤ st.maxPropIBD ∧ m ≠ n :=
  randomFounder_excl_aux st idx check tape.length tape le_rfl m rest h hc
